import Mathlib

/-!
Verification development for the msprime ancestry-simulation core.

The repository fragment under `src/` contains only `src/lib/util.h`: the
error-code macros, the `MSP_TSK_ERR_BIT` constant, and the declarations of
`msp_binary_interval_search`, `doubles_almost_equal`, `msp_set_tsk_error`
and `msp_is_tsk_error`.  The bodies of those functions, and the whole
simulation engine (segment tracker, demographic model, event scheduler),
are not under `src/`; following the spec, those parts are modelled from
the specification's words, and each such definition is marked
`Modelled from the spec:` in its doc comment.  Doubles are modelled as
rationals (`ℚ`): all the specified properties are about finite values and
exact comparisons, never about rounding.
-/

/-! ## Error codes, from `src/lib/util.h` lines 39-94. -/

def MSP_ERR_GENERIC : Int := -1
def MSP_ERR_NO_MEMORY : Int := -2
def MSP_ERR_BAD_STATE : Int := -3
def MSP_ERR_BAD_PARAM_VALUE : Int := -4
def MSP_ERR_OUT_OF_BOUNDS : Int := -5
def MSP_ERR_UNSORTED_DEMOGRAPHIC_EVENTS : Int := -6
def MSP_ERR_POPULATION_OVERFLOW : Int := -7
def MSP_ERR_POPULATION_OUT_OF_BOUNDS : Int := -8
def MSP_ERR_BAD_POPULATION_CONFIGURATION : Int := -9
def MSP_ERR_BAD_MIGRATION_MATRIX : Int := -10
def MSP_ERR_BAD_MIGRATION_MATRIX_INDEX : Int := -11
def MSP_ERR_DIAGONAL_MIGRATION_MATRIX_INDEX : Int := -12
def MSP_ERR_INFINITE_WAITING_TIME : Int := -13
def MSP_ERR_ASSERTION_FAILED : Int := -14
def MSP_ERR_SOURCE_DEST_EQUAL : Int := -15
def MSP_ERR_BAD_RECOMBINATION_MAP : Int := -16
def MSP_ERR_BAD_POPULATION_SIZE : Int := -17
def MSP_ERR_BAD_SAMPLES : Int := -18
def MSP_ERR_BAD_MODEL : Int := -19
def MSP_ERR_INSUFFICIENT_SAMPLES : Int := -20
def MSP_ERR_DUPLICATE_SITE_POSITION : Int := -21
def MSP_ERR_UNDEFINED_MULTIPLE_MERGER_COALESCENT : Int := -22
def MSP_ERR_INCOMPATIBLE_FROM_TS : Int := -23
def MSP_ERR_BAD_START_TIME_FROM_TS : Int := -24
def MSP_ERR_BAD_START_TIME : Int := -25
def MSP_ERR_BAD_DEMOGRAPHIC_EVENT_TIME : Int := -26
def MSP_ERR_RECOMB_MAP_TOO_COARSE : Int := -27
def MSP_ERR_TIME_TRAVEL : Int := -28
def MSP_ERR_INTEGRATION_FAILED : Int := -29
def MSP_ERR_BAD_SWEEP_POSITION : Int := -30
def MSP_ERR_BAD_TIME_DELTA : Int := -31
def MSP_ERR_BAD_ALLELE_FREQUENCY : Int := -32
def MSP_ERR_BAD_TRAJECTORY_START_END : Int := -33
def MSP_ERR_BAD_SWEEP_GENIC_SELECTION_ALPHA : Int := -34
def MSP_ERR_EVENTS_DURING_SWEEP : Int := -35
def MSP_ERR_UNSUPPORTED_OPERATION : Int := -36
def MSP_ERR_DTWF_ZERO_POPULATION_SIZE : Int := -37
def MSP_ERR_DTWF_UNSUPPORTED_BOTTLENECK : Int := -38
def MSP_ERR_BAD_PROPORTION : Int := -39
def MSP_ERR_BAD_PEDIGREE_NUM_SAMPLES : Int := -40
def MSP_ERR_BAD_PEDIGREE_ID : Int := -41
def MSP_ERR_BAD_BETA_MODEL_ALPHA : Int := -42
def MSP_ERR_BAD_TRUNCATION_POINT : Int := -43
def MSP_ERR_BAD_MUTATION_MAP_RATE : Int := -44
def MSP_ERR_INCOMPATIBLE_MUTATION_MAP : Int := -45
def MSP_ERR_INSUFFICIENT_INTERVALS : Int := -46
def MSP_ERR_INTERVAL_MAP_START_NON_ZERO : Int := -47
def MSP_ERR_NEGATIVE_INTERVAL_POSITION : Int := -48
def MSP_ERR_INTERVAL_POSITIONS_UNSORTED : Int := -49
def MSP_ERR_BAD_C : Int := -50
def MSP_ERR_BAD_PSI : Int := -51
def MSP_ERR_UNKNOWN_ALLELE : Int := -52
def MSP_ERR_MUTATION_GENERATION_OUT_OF_ORDER : Int := -53
def MSP_ERR_INSUFFICIENT_ALLELES : Int := -54
def MSP_ERR_BAD_ROOT_PROBABILITIES : Int := -55
def MSP_ERR_BAD_TRANSITION_MATRIX : Int := -56

/-- All 56 native error codes, in the order they are defined in
`src/lib/util.h` lines 39-94. -/
def mspErrorCodes : List Int :=
  [MSP_ERR_GENERIC, MSP_ERR_NO_MEMORY, MSP_ERR_BAD_STATE,
   MSP_ERR_BAD_PARAM_VALUE, MSP_ERR_OUT_OF_BOUNDS,
   MSP_ERR_UNSORTED_DEMOGRAPHIC_EVENTS, MSP_ERR_POPULATION_OVERFLOW,
   MSP_ERR_POPULATION_OUT_OF_BOUNDS, MSP_ERR_BAD_POPULATION_CONFIGURATION,
   MSP_ERR_BAD_MIGRATION_MATRIX, MSP_ERR_BAD_MIGRATION_MATRIX_INDEX,
   MSP_ERR_DIAGONAL_MIGRATION_MATRIX_INDEX, MSP_ERR_INFINITE_WAITING_TIME,
   MSP_ERR_ASSERTION_FAILED, MSP_ERR_SOURCE_DEST_EQUAL,
   MSP_ERR_BAD_RECOMBINATION_MAP, MSP_ERR_BAD_POPULATION_SIZE,
   MSP_ERR_BAD_SAMPLES, MSP_ERR_BAD_MODEL, MSP_ERR_INSUFFICIENT_SAMPLES,
   MSP_ERR_DUPLICATE_SITE_POSITION,
   MSP_ERR_UNDEFINED_MULTIPLE_MERGER_COALESCENT,
   MSP_ERR_INCOMPATIBLE_FROM_TS, MSP_ERR_BAD_START_TIME_FROM_TS,
   MSP_ERR_BAD_START_TIME, MSP_ERR_BAD_DEMOGRAPHIC_EVENT_TIME,
   MSP_ERR_RECOMB_MAP_TOO_COARSE, MSP_ERR_TIME_TRAVEL,
   MSP_ERR_INTEGRATION_FAILED, MSP_ERR_BAD_SWEEP_POSITION,
   MSP_ERR_BAD_TIME_DELTA, MSP_ERR_BAD_ALLELE_FREQUENCY,
   MSP_ERR_BAD_TRAJECTORY_START_END,
   MSP_ERR_BAD_SWEEP_GENIC_SELECTION_ALPHA, MSP_ERR_EVENTS_DURING_SWEEP,
   MSP_ERR_UNSUPPORTED_OPERATION, MSP_ERR_DTWF_ZERO_POPULATION_SIZE,
   MSP_ERR_DTWF_UNSUPPORTED_BOTTLENECK, MSP_ERR_BAD_PROPORTION,
   MSP_ERR_BAD_PEDIGREE_NUM_SAMPLES, MSP_ERR_BAD_PEDIGREE_ID,
   MSP_ERR_BAD_BETA_MODEL_ALPHA, MSP_ERR_BAD_TRUNCATION_POINT,
   MSP_ERR_BAD_MUTATION_MAP_RATE, MSP_ERR_INCOMPATIBLE_MUTATION_MAP,
   MSP_ERR_INSUFFICIENT_INTERVALS, MSP_ERR_INTERVAL_MAP_START_NON_ZERO,
   MSP_ERR_NEGATIVE_INTERVAL_POSITION, MSP_ERR_INTERVAL_POSITIONS_UNSORTED,
   MSP_ERR_BAD_C, MSP_ERR_BAD_PSI, MSP_ERR_UNKNOWN_ALLELE,
   MSP_ERR_MUTATION_GENERATION_OUT_OF_ORDER, MSP_ERR_INSUFFICIENT_ALLELES,
   MSP_ERR_BAD_ROOT_PROBABILITIES, MSP_ERR_BAD_TRANSITION_MATRIX]

/-- The bit that is 0 for any errors originating from tskit
(`src/lib/util.h` line 97). -/
def MSP_TSK_ERR_BIT : Nat := 13

/-- Bit `k` of the two's-complement representation of an integer:
`x % 2 ^ (k + 1)` (euclidean remainder, always non-negative) is the value
of the low `k + 1` bits, and bit `k` is set exactly when that value is at
least `2 ^ k`. -/
def int_bit (k : Nat) (x : Int) : Bool :=
  decide (2 ^ k ≤ x % (2 ^ (k + 1)))

/-- Modelled from the spec: the body of `msp_set_tsk_error` is not under
`src/` (only its declaration, `src/lib/util.h` line 99).  Per the header
comment "This bit is 0 for any errors originating from tskit" and spec §7.5
(foreign codes are "passed through unchanged, tagged"), tagging flips bit
`MSP_TSK_ERR_BIT` of the code — for a negative tskit code that bit is 1,
so the tag clears it — and preserves every other bit. -/
def msp_set_tsk_error (err : Int) : Int :=
  if int_bit MSP_TSK_ERR_BIT err then err - 2 ^ MSP_TSK_ERR_BIT
  else err + 2 ^ MSP_TSK_ERR_BIT

/-- Modelled from the spec: the body of `msp_is_tsk_error` is not under
`src/` (only its declaration, `src/lib/util.h` line 100).  A code
originates from tskit exactly when bit `MSP_TSK_ERR_BIT` is 0. -/
def msp_is_tsk_error (err : Int) : Bool :=
  !(int_bit MSP_TSK_ERR_BIT err)

/-! ## Floating-point near-equality (`doubles_almost_equal`). -/

/-- Modelled from the spec: the body of `doubles_almost_equal` is not
under `src/` (only its declaration, `src/lib/util.h` line 107).  Spec
§4.1: `almost_equal(a, b, eps)` returns true when
`|a-b| <= eps * max(1, |a|, |b|)`.  Doubles are modelled as rationals. -/
def doubles_almost_equal (a b eps : ℚ) : Bool :=
  decide (|a - b| ≤ eps * max 1 (max |a| |b|))

/-! ## Claims C3, C4, C5, C10. -/

/-- C3: for all doubles `a`, `b` and every `eps ≥ 0`,
`doubles_almost_equal a b eps` returns true exactly when
`|a - b| ≤ eps * max 1 (max |a| |b|)`. -/
theorem claim_C3_doubles_almost_equal (a b eps : ℚ) (heps : 0 ≤ eps) :
    doubles_almost_equal a b eps = true ↔
      |a - b| ≤ eps * max 1 (max |a| |b|) := by
  simp [doubles_almost_equal]

/-- Witness for C3 at `a = 1`, `b = 1`, `eps = 0`. -/
theorem claim_C3_witness :
    doubles_almost_equal 1 1 0 = true ↔
      |(1 : ℚ) - 1| ≤ 0 * max 1 (max |(1 : ℚ)| |(1 : ℚ)|) :=
  claim_C3_doubles_almost_equal 1 1 0 (by norm_num)

/-- C4: `doubles_almost_equal` is reflexive for `eps ≥ 0`, symmetric for
all arguments, and with `eps = 0` holds exactly on equal inputs. -/
theorem claim_C4_almost_equal_relational (a b eps : ℚ) :
    (0 ≤ eps → doubles_almost_equal a a eps = true) ∧
    doubles_almost_equal a b eps = doubles_almost_equal b a eps ∧
    (doubles_almost_equal a b 0 = true ↔ a = b) := by
  refine ⟨fun h => ?_, ?_, ?_⟩
  · simp only [doubles_almost_equal, sub_self, abs_zero, decide_eq_true_eq]
    have h1 : (1 : ℚ) ≤ max 1 (max |a| |a|) := le_max_left _ _
    nlinarith
  · simp only [doubles_almost_equal, abs_sub_comm a b, max_comm |a| |b|]
  · simp only [doubles_almost_equal, zero_mul, decide_eq_true_eq,
      abs_nonpos_iff, sub_eq_zero]

/-- Witness for C4, applying the reflexivity part at `a = 2`, `b = 3`,
`eps = 1/2`. -/
theorem claim_C4_witness : doubles_almost_equal 2 2 (1 / 2) = true :=
  (claim_C4_almost_equal_relational 2 3 (1 / 2)).1 (by norm_num)

/-- Involution of the tag: flipping bit `MSP_TSK_ERR_BIT` twice restores
the original code, so tagging loses no information. -/
theorem msp_set_tsk_error_involutive (e : Int) :
    msp_set_tsk_error (msp_set_tsk_error e) = e := by
  simp only [msp_set_tsk_error, int_bit, MSP_TSK_ERR_BIT, decide_eq_true_eq]
  norm_num
  split_ifs <;> omega

/-- C5: the tskit-error tag is information-preserving and discriminating:
`msp_is_tsk_error` holds exactly on codes whose bit 13 is 0, the tag is an
involution (hence injective, no information lost), tagging a code whose
bit 13 is 1 yields a code recognised as a tskit error, and no native
simulation code is ever classified as a tskit error. -/
theorem claim_C5_tsk_error_tagging :
    (∀ e : Int, msp_is_tsk_error e = true ↔ int_bit MSP_TSK_ERR_BIT e = false) ∧
    (∀ e : Int, msp_set_tsk_error (msp_set_tsk_error e) = e) ∧
    (∀ e₁ e₂ : Int, msp_set_tsk_error e₁ = msp_set_tsk_error e₂ → e₁ = e₂) ∧
    (∀ e : Int, int_bit MSP_TSK_ERR_BIT e = true →
      msp_is_tsk_error (msp_set_tsk_error e) = true) ∧
    (∀ c ∈ mspErrorCodes, msp_is_tsk_error c = false) := by
  refine ⟨?_, msp_set_tsk_error_involutive, ?_, ?_, ?_⟩
  · intro e
    simp [msp_is_tsk_error]
  · intro e₁ e₂ h
    have := congrArg msp_set_tsk_error h
    rwa [msp_set_tsk_error_involutive, msp_set_tsk_error_involutive] at this
  · intro e he
    simp only [msp_is_tsk_error, msp_set_tsk_error, int_bit, MSP_TSK_ERR_BIT,
      decide_eq_true_eq] at he ⊢
    norm_num at he ⊢
    split_ifs <;> omega
  · decide

/-- Witness for C5, tagging the concrete tskit code `-2` and checking it is
recognised as a tskit error. -/
theorem claim_C5_witness : msp_is_tsk_error (msp_set_tsk_error (-2)) = true :=
  claim_C5_tsk_error_tagging.2.2.2.1 (-2) (by decide)

/-- C10: the 56 native error kinds are exactly the pairwise-distinct values
`-1` through `-56`; every one of them has bit 13 set in two's complement,
so none is ever classified as a tskit (foreign) error, and any lookup keyed
on the code (such as the error-message table) is unambiguous. -/
theorem claim_C10_error_codes_distinct :
    mspErrorCodes = (List.range 56).map (fun k => -((k : Int) + 1)) ∧
    mspErrorCodes.Nodup ∧
    (∀ c ∈ mspErrorCodes,
      int_bit MSP_TSK_ERR_BIT c = true ∧ msp_is_tsk_error c = false) := by
  decide

/-! ## Binary interval search (`msp_binary_interval_search`). -/

/-- Modelled from the spec: the body of `msp_binary_interval_search` is
not under `src/` (only its declaration, `src/lib/util.h` line 106).  Spec
§4.1: binary search, `O(log n)`, for the index `i` such that
`sorted_values[i] <= query < sorted_values[i+1]`.  This is the bisection
loop: it maintains `values[lo] <= query < values[hi]` and narrows the
bracket `[lo, hi)` until it has width one. -/
def bsearchGo (query : ℚ) (values : List ℚ) (lo hi : Nat) : Nat :=
  if hi ≤ lo + 1 then lo
  else if values.getD ((lo + hi) / 2) 0 ≤ query then
    bsearchGo query values ((lo + hi) / 2) hi
  else
    bsearchGo query values lo ((lo + hi) / 2)
termination_by hi - lo
decreasing_by
  all_goals omega

/-- Modelled from the spec: contract of `find_interval` from spec §4.1.
`query` must lie within `[sorted_values[0], sorted_values[n-1])`;
violating the precondition yields the `OUT_OF_BOUNDS` error, otherwise
the bisection runs over the full bracket. -/
def msp_binary_interval_search (query : ℚ) (values : List ℚ) :
    Except Int Nat :=
  if 2 ≤ values.length ∧ values.getD 0 0 ≤ query ∧
      query < values.getD (values.length - 1) 0 then
    .ok (bsearchGo query values 0 (values.length - 1))
  else
    .error MSP_ERR_OUT_OF_BOUNDS

/-- Invariant of the bisection loop: started on a bracket `[lo, hi)` with
`values[lo] <= query < values[hi]`, it returns an index `i` in `[lo, hi)`
with `values[i] <= query < values[i+1]`. -/
theorem bsearchGo_spec (query : ℚ) (values : List ℚ) :
    ∀ d lo hi, hi - lo = d → lo < hi →
      values.getD lo 0 ≤ query → query < values.getD hi 0 →
      lo ≤ bsearchGo query values lo hi ∧
      bsearchGo query values lo hi < hi ∧
      values.getD (bsearchGo query values lo hi) 0 ≤ query ∧
      query < values.getD (bsearchGo query values lo hi + 1) 0 := by
  intro d
  induction d using Nat.strong_induction_on with
  | _ d ih =>
    intro lo hi hd hlt hlo hhi
    rw [bsearchGo]
    split_ifs with h1 h2
    · have : hi = lo + 1 := by omega
      subst this
      exact ⟨le_refl _, by omega, hlo, hhi⟩
    · have hrec := ih (hi - (lo + hi) / 2) (by omega) ((lo + hi) / 2) hi rfl
        (by omega) h2 hhi
      exact ⟨by omega, hrec.2.1, hrec.2.2.1, hrec.2.2.2⟩
    · have hrec := ih ((lo + hi) / 2 - lo) (by omega) lo ((lo + hi) / 2) rfl
        (by omega) hlo (by linarith [not_le.mp h2])
      exact ⟨hrec.1, by omega, hrec.2.2.1, hrec.2.2.2⟩

/-- Strict monotonicity of `getD` reads on a strictly sorted list. -/
theorem getD_strictMono (values : List ℚ)
    (hs : values.Pairwise (· < ·)) (a b : Nat) (hab : a < b)
    (hb : b < values.length) : values.getD a 0 < values.getD b 0 := by
  have ha : a < values.length := lt_trans hab hb
  rw [values.getD_eq_getElem 0 ha, values.getD_eq_getElem 0 hb]
  exact List.pairwise_iff_getElem.mp hs a b ha hb hab

/-- C1: for a strictly increasing array of `n ≥ 2` values and an in-range
query, `msp_binary_interval_search` returns the interval index `i` with
`values[i] <= query < values[i+1]`; in particular a query equal to a
boundary value `values[k]` (with `k < n-1`) returns exactly `k`. -/
theorem claim_C1_binary_interval_search (query : ℚ) (values : List ℚ)
    (hn : 2 ≤ values.length)
    (hsorted : values.Pairwise (· < ·))
    (hlo : values.getD 0 0 ≤ query)
    (hhi : query < values.getD (values.length - 1) 0) :
    ∃ i, msp_binary_interval_search query values = .ok i ∧
      i < values.length - 1 ∧
      values.getD i 0 ≤ query ∧ query < values.getD (i + 1) 0 ∧
      ∀ k, k < values.length - 1 → query = values.getD k 0 → i = k := by
  have hcond : 2 ≤ values.length ∧ values.getD 0 0 ≤ query ∧
      query < values.getD (values.length - 1) 0 := ⟨hn, hlo, hhi⟩
  refine ⟨bsearchGo query values 0 (values.length - 1), ?_, ?_⟩
  · unfold msp_binary_interval_search
    rw [if_pos hcond]
  · have hspec := bsearchGo_spec query values (values.length - 1) 0
      (values.length - 1) rfl (by omega) hlo hhi
    refine ⟨hspec.2.1, hspec.2.2.1, hspec.2.2.2, ?_⟩
    intro k hk hq
    set i := bsearchGo query values 0 (values.length - 1) with hi
    by_contra hne
    rcases Nat.lt_or_ge i k with hik | hki
    · have : values.getD (i + 1) 0 ≤ values.getD k 0 := by
        have hcase : i + 1 = k ∨ i + 1 < k := by omega
        rcases hcase with he | hl
        · rw [he]
        · exact le_of_lt (getD_strictMono values hsorted (i + 1) k hl (by omega))
      rw [← hq] at this
      exact absurd hspec.2.2.2 (not_lt.mpr this)
    · have hki' : k < i := by omega
      have h1 : values.getD k 0 < values.getD (k + 1) 0 :=
        getD_strictMono values hsorted k (k + 1) (by omega) (by omega)
      have h2 : values.getD (k + 1) 0 ≤ values.getD i 0 := by
        have hcase : k + 1 = i ∨ k + 1 < i := by omega
        rcases hcase with he | hl
        · rw [he]
        · exact le_of_lt (getD_strictMono values hsorted (k + 1) i hl (by omega))
      rw [hq] at hspec
      linarith [hspec.2.2.1]

/-- Witness for C1: querying `1` in `[0, 1, 2]` (a boundary value). -/
theorem claim_C1_witness :
    ∃ i, msp_binary_interval_search 1 [0, 1, 2] = .ok i ∧
      i < [(0 : ℚ), 1, 2].length - 1 ∧
      [(0 : ℚ), 1, 2].getD i 0 ≤ 1 ∧ (1 : ℚ) < [(0 : ℚ), 1, 2].getD (i + 1) 0 ∧
      ∀ k, k < [(0 : ℚ), 1, 2].length - 1 →
        (1 : ℚ) = [(0 : ℚ), 1, 2].getD k 0 → i = k :=
  claim_C1_binary_interval_search 1 [0, 1, 2] (by decide)
    (by decide) (by decide) (by decide)

/-- C2: a query outside `[values[0], values[n-1])` yields the
`OUT_OF_BOUNDS` error rather than a valid interval index. -/
theorem claim_C2_out_of_bounds (query : ℚ) (values : List ℚ)
    (h : query < values.getD 0 0 ∨ values.getD (values.length - 1) 0 ≤ query) :
    msp_binary_interval_search query values = .error MSP_ERR_OUT_OF_BOUNDS := by
  have hcond : ¬(2 ≤ values.length ∧ values.getD 0 0 ≤ query ∧
      query < values.getD (values.length - 1) 0) := by
    rintro ⟨-, h1, h2⟩
    rcases h with h3 | h3 <;> linarith
  unfold msp_binary_interval_search
  rw [if_neg hcond]

/-- Witness for C2: querying `5` in `[0, 1, 2]`. -/
theorem claim_C2_witness :
    msp_binary_interval_search 5 [0, 1, 2] = .error MSP_ERR_OUT_OF_BOUNDS :=
  claim_C2_out_of_bounds 5 [0, 1, 2] (by decide)

/-! ## Segment/Lineage tracker (spec §3, §4.3).

The tracker implementation is not under `src/`; the operations below are
modelled from the spec's words.  Positions are rationals, node ids are
naturals, and a lineage is its ordered list of segments. -/

/-- Segment, spec §3: a genomic half-open interval `[left, right)`
currently owned by node `node`. -/
structure Segment where
  left : ℚ
  right : ℚ
  node : Nat
deriving DecidableEq, Repr

/-- Output edge, spec §3: interval `[left, right)` inherited by `child`
from `parent`. -/
structure GraphEdge where
  left : ℚ
  right : ℚ
  parent : Nat
  child : Nat
deriving DecidableEq, Repr

/-- Invariant of a lineage's segment list, spec §3: within one lineage the
intervals are disjoint and sorted by `left`, and `left < right`. -/
def segmentsOrdered (xs : List Segment) : Prop :=
  (∀ s ∈ xs, s.left < s.right) ∧ xs.Chain' (fun s t => s.right ≤ t.left)

/-- A segment list with no two consecutive segments that abut (the first
ends where the second starts) and carry the same node: joining such pieces
changes nothing semantically, and the merge operation performs that
joining. -/
def segmentsDefragmented (xs : List Segment) : Prop :=
  xs.Chain' (fun s t => ¬(s.right = t.left ∧ s.node = t.node))

/-- Modelled from the spec: split at a breakpoint, left half (spec §4.3):
segments with `right <= p`, and the segment straddling `p` truncated to
`[left, p)`. -/
def splitLineageLeft (p : ℚ) (xs : List Segment) : List Segment :=
  xs.filterMap fun s =>
    if s.right ≤ p then some s
    else if s.left < p then some ⟨s.left, p, s.node⟩
    else none

/-- Modelled from the spec: split at a breakpoint, right half (spec §4.3):
the `[p, right)` part of the straddling segment and all segments from `p`
onward. -/
def splitLineageRight (p : ℚ) (xs : List Segment) : List Segment :=
  xs.filterMap fun s =>
    if p ≤ s.left then some s
    else if p < s.right then some ⟨p, s.right, s.node⟩
    else none

/-- Modelled from the spec: the core of the coalescence merge (spec §4.3).
Walks the two segment lists sorted by `left`; a sub-interval covered by
only one input is carried forward unchanged, and a sub-interval covered by
both becomes a new segment owned by the freshly created ancestor node `w`,
emitting one edge per old owner. -/
def mergeSegs (w : Nat) : List Segment → List Segment → List Segment × List GraphEdge
  | [], ys => (ys, [])
  | x :: xs, [] => (x :: xs, [])
  | x :: xs, y :: ys =>
    if x.right ≤ y.left then
      let r := mergeSegs w xs (y :: ys)
      (x :: r.1, r.2)
    else if y.right ≤ x.left then
      let r := mergeSegs w (x :: xs) ys
      (y :: r.1, r.2)
    else
      let ol := max x.left y.left
      let om := min x.right y.right
      let pre : List Segment :=
        if x.left < y.left then [⟨x.left, y.left, x.node⟩]
        else if y.left < x.left then [⟨y.left, x.left, y.node⟩]
        else []
      let r :=
        if x.right < y.right then mergeSegs w xs (⟨x.right, y.right, y.node⟩ :: ys)
        else if y.right < x.right then mergeSegs w (⟨y.right, x.right, x.node⟩ :: xs) ys
        else mergeSegs w xs ys
      (pre ++ ⟨ol, om, w⟩ :: r.1,
       ⟨ol, om, w, x.node⟩ :: ⟨ol, om, w, y.node⟩ :: r.2)
termination_by xs ys => xs.length + ys.length
decreasing_by all_goals simp <;> omega

/-- Modelled from the spec: joining of contiguous pieces owned by the same
node, so that a lineage never stores a breakpoint that separates nothing
(spec §4.1 "avoid zero-length or duplicate-position segments", and needed
for the exact round-trip property of spec §8). -/
def defragSegs : List Segment → List Segment
  | [] => []
  | [s] => [s]
  | s :: t :: rest =>
    if s.right = t.left ∧ s.node = t.node then
      defragSegs (⟨s.left, t.right, s.node⟩ :: rest)
    else
      s :: defragSegs (t :: rest)
termination_by xs => xs.length
decreasing_by all_goals simp <;> omega

/-- Modelled from the spec: merge (coalescence) of two lineages, spec
§4.3, with the defragmentation pass over the resulting segment list. -/
def mergeLineages (w : Nat) (xs ys : List Segment) :
    List Segment × List GraphEdge :=
  let r := mergeSegs w xs ys
  (defragSegs r.1, r.2)

/-- Total genomic length held by a segment list. -/
def totalSegLength (xs : List Segment) : ℚ :=
  (xs.map fun s => s.right - s.left).sum

/-! ## Round trip of split and merge (claim C7). -/

/-- Tail of an ordered segment list is ordered. -/
theorem segmentsOrdered_tail {s : Segment} {rest : List Segment}
    (h : segmentsOrdered (s :: rest)) : segmentsOrdered rest :=
  ⟨fun u hu => h.1 u (List.mem_cons_of_mem s hu), (List.chain'_cons'.mp h.2).2⟩

/-- In an ordered list, the head's right end bounds every later left end. -/
theorem ordered_head_le {s : Segment} {rest : List Segment}
    (h : segmentsOrdered (s :: rest)) : ∀ x ∈ rest, s.right ≤ x.left := by
  induction rest generalizing s with
  | nil => simp
  | cons t rest ih =>
    intro x hx
    have h1 : s.right ≤ t.left := (List.chain'_cons.mp h.2).1
    have hord : segmentsOrdered (t :: rest) := segmentsOrdered_tail h
    rcases List.mem_cons.mp hx with rfl | hx
    · exact h1
    · have h2 : t.left < t.right := h.1 t (by simp)
      have h3 : t.right ≤ x.left := ih hord x hx
      linarith

/-- A defragmented list is a fixed point of `defragSegs`. -/
theorem defragSegs_eq_self : ∀ xs : List Segment,
    segmentsDefragmented xs → defragSegs xs = xs := by
  intro xs
  induction xs with
  | nil => intro; rw [defragSegs]
  | cons s rest ih =>
    intro hd
    cases rest with
    | nil => rw [defragSegs]
    | cons t rest' =>
      rw [defragSegs]
      have hj : ¬(s.right = t.left ∧ s.node = t.node) :=
        (List.chain'_cons.mp hd).1
      rw [if_neg hj]
      rw [ih (List.chain'_cons.mp hd).2]

/-- Pushing `defragSegs` under a cons whose junction cannot be joined. -/
theorem defragSegs_cons {s u : Segment} (L : List Segment)
    (h : ¬(s.right = u.left ∧ s.node = u.node)) :
    defragSegs (s :: u :: L) = s :: defragSegs (u :: L) := by
  rw [defragSegs, if_neg h]

/-- Every segment of the left half ends at or before the breakpoint. -/
theorem splitLineageLeft_bound (p : ℚ) (xs : List Segment) :
    ∀ u ∈ splitLineageLeft p xs, u.right ≤ p := by
  intro u hu
  rcases List.mem_filterMap.mp hu with ⟨s, -, hs⟩
  split_ifs at hs with h1 h2
  · rw [Option.some.injEq] at hs
    rw [← hs]
    exact h1
  · rw [Option.some.injEq] at hs
    rw [← hs]

/-- Every segment of the right half starts at or after the breakpoint. -/
theorem splitLineageRight_bound (p : ℚ) (xs : List Segment) :
    ∀ u ∈ splitLineageRight p xs, p ≤ u.left := by
  intro u hu
  rcases List.mem_filterMap.mp hu with ⟨s, -, hs⟩
  split_ifs at hs with h1 h2
  · rw [Option.some.injEq] at hs
    rw [← hs]
    exact h1
  · rw [Option.some.injEq] at hs
    rw [← hs]

/-- Provenance of a left-half segment: its left end and node come from a
source segment of the original list. -/
theorem splitLineageLeft_mem (p : ℚ) (xs : List Segment) :
    ∀ u ∈ splitLineageLeft p xs,
      ∃ r ∈ xs, u.left = r.left ∧ u.node = r.node := by
  intro u hu
  rcases List.mem_filterMap.mp hu with ⟨s, hsm, hs⟩
  split_ifs at hs with h1 h2
  · cases hs; exact ⟨u, hsm, rfl, rfl⟩
  · cases hs; exact ⟨s, hsm, rfl, rfl⟩

/-- Provenance of a right-half segment: its node comes from a source
segment, and its left end is the source's or the breakpoint (the latter
only for a straddling source). -/
theorem splitLineageRight_mem (p : ℚ) (xs : List Segment) :
    ∀ u ∈ splitLineageRight p xs,
      ∃ r ∈ xs, u.node = r.node ∧
        (u.left = r.left ∨ (u.left = p ∧ r.left < p)) := by
  intro u hu
  rcases List.mem_filterMap.mp hu with ⟨s, hsm, hs⟩
  split_ifs at hs with h1 h2
  · cases hs; exact ⟨u, hsm, rfl, Or.inl rfl⟩
  · cases hs; exact ⟨s, hsm, rfl, Or.inr ⟨rfl, not_le.mp h1⟩⟩

/-- The left half is empty when every segment lies at or after `p`. -/
theorem splitLineageLeft_nil (p : ℚ) (xs : List Segment)
    (hlr : ∀ x ∈ xs, x.left < x.right) (h : ∀ x ∈ xs, p ≤ x.left) :
    splitLineageLeft p xs = [] := by
  induction xs with
  | nil => rfl
  | cons s rest ih =>
    have h1 : p ≤ s.left := h s (by simp)
    have h2 : s.left < s.right := hlr s (by simp)
    rw [splitLineageLeft, List.filterMap_cons]
    rw [if_neg (by linarith), if_neg (by linarith)]
    exact ih (fun x hx => hlr x (by simp [hx])) fun x hx => h x (by simp [hx])

/-- The right half is the whole list when every segment lies at or after
`p`. -/
theorem splitLineageRight_id (p : ℚ) (xs : List Segment)
    (h : ∀ x ∈ xs, p ≤ x.left) : splitLineageRight p xs = xs := by
  induction xs with
  | nil => rfl
  | cons s rest ih =>
    rw [splitLineageRight, List.filterMap_cons, if_pos (h s (by simp))]
    rw [splitLineageRight] at ih
    rw [ih fun x hx => h x (by simp [hx])]

/-- Merging two lineages separated by a position `p` (everything in the
first ends by `p`, everything in the second starts at `p` or later) finds
no overlap: it interleaves the segments and emits no edge. -/
theorem mergeSegs_sep (w : Nat) (p : ℚ) : ∀ (xs ys : List Segment),
    (∀ x ∈ xs, x.right ≤ p) → (∀ y ∈ ys, p ≤ y.left) →
    mergeSegs w xs ys = (xs ++ ys, []) := by
  intro xs
  induction xs with
  | nil => intro ys _ _; rw [mergeSegs]; simp
  | cons x xs ih =>
    intro ys hx hy
    cases ys with
    | nil => rw [mergeSegs]; simp
    | cons y ys' =>
      rw [mergeSegs]
      have hxy : x.right ≤ y.left :=
        le_trans (hx x (by simp)) (hy y (by simp))
      rw [if_pos hxy]
      have := ih (y :: ys') (fun u hu => hx u (by simp [hu])) hy
      rw [this]
      simp

/-- Core of the round trip: splitting an ordered, defragmented lineage at
`p` and defragmenting the concatenation of the two halves restores the
original segment list. -/
theorem split_defrag_roundtrip (p : ℚ) : ∀ xs : List Segment,
    segmentsOrdered xs → segmentsDefragmented xs →
    defragSegs (splitLineageLeft p xs ++ splitLineageRight p xs) = xs := by
  intro xs
  induction xs with
  | nil =>
    intro _ _
    show defragSegs [] = []
    rw [defragSegs]
  | cons s rest ih =>
    intro hord hdef
    have hlr : s.left < s.right := hord.1 s (by simp)
    have hrest_ord : segmentsOrdered rest := segmentsOrdered_tail hord
    have hrest_def : segmentsDefragmented rest := (List.chain'_cons'.mp hdef).2
    have hbound : ∀ x ∈ rest, s.right ≤ x.left := ordered_head_le hord
    by_cases hC : p ≤ s.left
    · have hall : ∀ x ∈ s :: rest, p ≤ x.left := by
        intro x hx
        rcases List.mem_cons.mp hx with rfl | hx
        · exact hC
        · linarith [hbound x hx]
      rw [splitLineageLeft_nil p (s :: rest) hord.1 hall,
        splitLineageRight_id p (s :: rest) hall]
      rw [List.nil_append]
      exact defragSegs_eq_self _ hdef
    · by_cases hB : p < s.right
      · -- the head straddles the breakpoint
        have hsl : s.left < p := not_le.mp hC
        have hall : ∀ x ∈ rest, p ≤ x.left := fun x hx =>
          le_trans (le_of_lt hB) (hbound x hx)
        have hL : splitLineageLeft p (s :: rest) = [⟨s.left, p, s.node⟩] := by
          rw [splitLineageLeft, List.filterMap_cons]
          rw [if_neg (by linarith), if_pos hsl]
          have : rest.filterMap _ = splitLineageLeft p rest := rfl
          rw [this, splitLineageLeft_nil p rest hrest_ord.1 hall]
        have hR : splitLineageRight p (s :: rest) =
            ⟨p, s.right, s.node⟩ :: rest := by
          rw [splitLineageRight, List.filterMap_cons]
          rw [if_neg (by linarith), if_pos hB]
          have : rest.filterMap _ = splitLineageRight p rest := rfl
          rw [this, splitLineageRight_id p rest hall]
        rw [hL, hR, List.singleton_append]
        rw [defragSegs, if_pos ⟨rfl, rfl⟩]
        exact defragSegs_eq_self _ hdef
      · -- the head lies entirely left of the breakpoint
        have hA : s.right ≤ p := not_lt.mp hB
        have hL : splitLineageLeft p (s :: rest) =
            s :: splitLineageLeft p rest := by
          rw [splitLineageLeft, List.filterMap_cons, if_pos hA]
          rfl
        have hR : splitLineageRight p (s :: rest) = splitLineageRight p rest := by
          rw [splitLineageRight, List.filterMap_cons]
          rw [if_neg hC, if_neg hB]
          rfl
        rw [hL, hR, List.cons_append]
        have hIH := ih hrest_ord hrest_def
        have hne : ∀ u ∈ splitLineageLeft p rest ++ splitLineageRight p rest,
            ¬(s.right = u.left ∧ s.node = u.node) := by
          rintro u hu ⟨heq, hnode⟩
          have hmem : ∃ r ∈ rest, u.left = r.left ∧ u.node = r.node ∨
              (u.node = r.node ∧ u.left = p ∧ r.left < p) := by
            rcases List.mem_append.mp hu with huL | huR
            · rcases splitLineageLeft_mem p rest u huL with ⟨r, hr, h1, h2⟩
              exact ⟨r, hr, Or.inl ⟨h1, h2⟩⟩
            · rcases splitLineageRight_mem p rest u huR with ⟨r, hr, h1, h2⟩
              rcases h2 with h2 | h2
              · exact ⟨r, hr, Or.inl ⟨h2, h1⟩⟩
              · exact ⟨r, hr, Or.inr ⟨h1, h2.1, h2.2⟩⟩
          rcases hmem with ⟨r, hr, hcase⟩
          cases rest with
          | nil => exact absurd hr (List.not_mem_nil r)
          | cons t rest' =>
            have hjunction : ¬(s.right = t.left ∧ s.node = t.node) :=
              (List.chain'_cons.mp hdef).1
            rcases hcase with ⟨hul, hun⟩ | ⟨hun, hup, hrp⟩
            · rcases List.mem_cons.mp hr with rfl | hr'
              · exact hjunction ⟨heq.trans hul, hnode.trans hun⟩
              · have h1 : s.right ≤ t.left := hbound t (by simp)
                have h2 : t.left < t.right := hrest_ord.1 t (by simp)
                have h3 : t.right ≤ r.left := ordered_head_le hrest_ord r hr'
                have h4 : s.right = r.left := heq.trans hul
                linarith
            · have h1 : s.right ≤ r.left := hbound r hr
              have h2 : s.right = p := heq.trans hup
              linarith
        cases hcaseL : splitLineageLeft p rest ++ splitLineageRight p rest with
        | nil =>
          have hrest_nil : rest = [] := by rw [← hIH, hcaseL, defragSegs]
          subst hrest_nil
          rw [defragSegs]
        | cons u L' =>
          rw [hcaseL] at hIH
          have hmem : u ∈ splitLineageLeft p rest ++ splitLineageRight p rest := by
            rw [hcaseL]
            exact List.mem_cons_self u L'
          rw [defragSegs_cons L' (hne u hmem)]
          rw [hIH]

/-- C7 counterexample: the lineage `[[0,1) node 0, [1,2) node 0]` is valid
in the claim's sense — disjoint intervals sorted by `left` with
`left < right` — and `p = 1` is strictly inside its span `[0, 2)`, yet
splitting at `1` and merging the halves back yields the single segment
`[0,2) node 0` (the merge joins the two abutting same-node pieces), not
the original two-segment list. -/
theorem claim_C7_counterexample :
    segmentsOrdered [⟨0, 1, 0⟩, ⟨1, 2, 0⟩] ∧
    (⟨0, 1, 0⟩ : Segment).left < 1 ∧ (1 : ℚ) < (⟨1, 2, 0⟩ : Segment).right ∧
    mergeLineages 7 (splitLineageLeft 1 [⟨0, 1, 0⟩, ⟨1, 2, 0⟩])
        (splitLineageRight 1 [⟨0, 1, 0⟩, ⟨1, 2, 0⟩]) ≠
      ([⟨0, 1, 0⟩, ⟨1, 2, 0⟩], []) := by
  refine ⟨⟨?_, ?_⟩, by norm_num, by norm_num, ?_⟩
  · intro s hs
    rcases List.mem_cons.mp hs with rfl | hs
    · norm_num
    · rcases List.mem_cons.mp hs with rfl | hs
      · norm_num
      · exact absurd hs (List.not_mem_nil s)
  · rw [List.chain'_cons]
    refine ⟨by norm_num, List.chain'_singleton _⟩
  · have hL : splitLineageLeft 1 [⟨0, 1, 0⟩, ⟨1, 2, 0⟩] = [⟨0, 1, 0⟩] := by
      norm_num [splitLineageLeft, List.filterMap_cons]
    have hR : splitLineageRight 1 [⟨0, 1, 0⟩, ⟨1, 2, 0⟩] = [⟨1, 2, 0⟩] := by
      norm_num [splitLineageRight, List.filterMap_cons]
    have hM : mergeSegs 7 [(⟨0, 1, 0⟩ : Segment)] [(⟨1, 2, 0⟩ : Segment)] =
        ([⟨0, 1, 0⟩, ⟨1, 2, 0⟩], []) := by
      rw [mergeSegs, if_pos (by norm_num)]
      rw [mergeSegs]
    have hD : defragSegs [(⟨0, 1, 0⟩ : Segment), ⟨1, 2, 0⟩] = [⟨0, 2, 0⟩] := by
      rw [defragSegs, if_pos ⟨rfl, rfl⟩]
      rw [defragSegs]
    rw [hL, hR]
    simp only [mergeLineages, hM, hD]
    intro hcontra
    have := congrArg (fun q => q.1.length) hcontra
    simp at this

/-- C7 (amended): for every lineage whose segment list is valid (disjoint
intervals sorted by `left`, `left < right`) and also defragmented (no two
consecutive segments abut with the same owning node), splitting at any
breakpoint `p` and then merging the two halves back together, with no
intervening events, reproduces the original segment list exactly and
emits no edges. -/
theorem claim_C7_split_merge_roundtrip (w : Nat) (p : ℚ) (xs : List Segment)
    (hord : segmentsOrdered xs) (hdef : segmentsDefragmented xs) :
    mergeLineages w (splitLineageLeft p xs) (splitLineageRight p xs) =
      (xs, []) := by
  have hsep := mergeSegs_sep w p (splitLineageLeft p xs)
    (splitLineageRight p xs) (splitLineageLeft_bound p xs)
    (splitLineageRight_bound p xs)
  simp only [mergeLineages, hsep]
  rw [split_defrag_roundtrip p xs hord hdef]

/-- Witness for C7 (amended) on the lineage `[[0,1) node 3, [2,3) node 4]`
split at `p = 1`. -/
theorem claim_C7_witness :
    mergeLineages 9 (splitLineageLeft 1 [⟨0, 1, 3⟩, ⟨2, 3, 4⟩])
        (splitLineageRight 1 [⟨0, 1, 3⟩, ⟨2, 3, 4⟩]) =
      ([⟨0, 1, 3⟩, ⟨2, 3, 4⟩], []) :=
  claim_C7_split_merge_roundtrip 9 1 [⟨0, 1, 3⟩, ⟨2, 3, 4⟩]
    (by constructor
        · intro s hs
          rcases List.mem_cons.mp hs with rfl | hs
          · norm_num
          · rcases List.mem_cons.mp hs with rfl | hs
            · norm_num
            · exact absurd hs (List.not_mem_nil s)
        · rw [List.chain'_cons]
          exact ⟨by norm_num, List.chain'_singleton _⟩)
    (by rw [segmentsDefragmented, List.chain'_cons]
        refine ⟨?_, List.chain'_singleton _⟩
        rintro ⟨h1, -⟩
        norm_num at h1)

/-! ## Conservation of total ancestral length (claim C8). -/

/-- Length of a cons segment list. -/
theorem totalSegLength_cons (s : Segment) (xs : List Segment) :
    totalSegLength (s :: xs) = (s.right - s.left) + totalSegLength xs := by
  simp [totalSegLength]

/-- Defragmentation preserves the total genomic length: joining two
abutting pieces `[a,b) + [b,c)` yields `[a,c)` of the same total length. -/
theorem totalSegLength_defrag : ∀ xs : List Segment,
    totalSegLength (defragSegs xs) = totalSegLength xs := by
  intro xs
  induction xs using defragSegs.induct with
  | case1 => rw [defragSegs]
  | case2 s => rw [defragSegs]
  | case3 s t rest hg ih =>
    rw [defragSegs, if_pos hg, ih]
    simp only [totalSegLength_cons]
    have h1 : s.right = t.left := hg.1
    linarith
  | case4 s t rest hg ih =>
    rw [defragSegs, if_neg hg]
    simp only [totalSegLength_cons, ih]

/-- Splitting a lineage at any breakpoint conserves its total genomic
length exactly. -/
theorem totalSegLength_split (p : ℚ) : ∀ xs : List Segment,
    (∀ s ∈ xs, s.left ≤ s.right) →
    totalSegLength (splitLineageLeft p xs) +
      totalSegLength (splitLineageRight p xs) = totalSegLength xs := by
  intro xs
  induction xs with
  | nil => intro _; simp [splitLineageLeft, splitLineageRight, totalSegLength]
  | cons s rest ih =>
    intro h
    have hs : s.left ≤ s.right := h s (by simp)
    have ihr := ih fun x hx => h x (by simp [hx])
    have eL : rest.filterMap _ = splitLineageLeft p rest := rfl
    have eR : rest.filterMap _ = splitLineageRight p rest := rfl
    by_cases h1 : s.right ≤ p
    · by_cases h2 : p ≤ s.left
      · have hL : splitLineageLeft p (s :: rest) =
            s :: splitLineageLeft p rest := by
          rw [splitLineageLeft, List.filterMap_cons, if_pos h1]
          rfl
        have hR : splitLineageRight p (s :: rest) =
            s :: splitLineageRight p rest := by
          rw [splitLineageRight, List.filterMap_cons, if_pos h2]
          rfl
        have hdeg : s.left = s.right := le_antisymm hs (by linarith)
        rw [hL, hR]
        simp only [totalSegLength_cons]
        linarith
      · have hL : splitLineageLeft p (s :: rest) =
            s :: splitLineageLeft p rest := by
          rw [splitLineageLeft, List.filterMap_cons, if_pos h1]
          rfl
        have hR : splitLineageRight p (s :: rest) = splitLineageRight p rest := by
          rw [splitLineageRight, List.filterMap_cons]
          rw [if_neg h2, if_neg (by linarith)]
          rfl
        rw [hL, hR]
        simp only [totalSegLength_cons]
        linarith
    · by_cases h2 : p ≤ s.left
      · have hL : splitLineageLeft p (s :: rest) = splitLineageLeft p rest := by
          rw [splitLineageLeft, List.filterMap_cons]
          rw [if_neg h1, if_neg (by linarith)]
          rfl
        have hR : splitLineageRight p (s :: rest) =
            s :: splitLineageRight p rest := by
          rw [splitLineageRight, List.filterMap_cons, if_pos h2]
          rfl
        rw [hL, hR]
        simp only [totalSegLength_cons]
        linarith
      · have hl : s.left < p := not_le.mp h2
        have hr : p < s.right := not_le.mp h1
        have hL : splitLineageLeft p (s :: rest) =
            ⟨s.left, p, s.node⟩ :: splitLineageLeft p rest := by
          rw [splitLineageLeft, List.filterMap_cons]
          rw [if_neg h1, if_pos hl]
          rfl
        have hR : splitLineageRight p (s :: rest) =
            ⟨p, s.right, s.node⟩ :: splitLineageRight p rest := by
          rw [splitLineageRight, List.filterMap_cons]
          rw [if_neg h2, if_pos hr]
          rfl
        rw [hL, hR]
        simp only [totalSegLength_cons]
        linarith

/-- Merging two lineages never increases the total genomic length: each
sub-interval covered by both inputs is emitted once (owned by the new
ancestor) instead of twice. -/
theorem totalSegLength_mergeSegs_le (w : Nat) (xs ys : List Segment) :
    (∀ s ∈ xs, s.left ≤ s.right) → (∀ s ∈ ys, s.left ≤ s.right) →
    totalSegLength (mergeSegs w xs ys).1 ≤
      totalSegLength xs + totalSegLength ys := by
  induction xs, ys using mergeSegs.induct w with
  | case1 ys => intro _ _; rw [mergeSegs]; simp [totalSegLength]
  | case2 x xs => intro _ _; rw [mergeSegs]; simp [totalSegLength]
  | case3 x xs y ys h1 ih =>
    intro hx hy
    rw [mergeSegs, if_pos h1]
    have hrec := ih (fun s hs => hx s (List.mem_cons_of_mem x hs)) hy
    simp only [totalSegLength_cons] at hrec ⊢
    linarith
  | case4 x xs y ys h1 h2 ih =>
    intro hx hy
    rw [mergeSegs, if_neg h1, if_pos h2]
    have hrec := ih hx (fun s hs => hy s (List.mem_cons_of_mem y hs))
    simp only [totalSegLength_cons] at hrec ⊢
    linarith
  | case5 x xs y ys h1 h2 ih1 ih2 ih3 =>
    intro hx hy
    have hxle : x.left ≤ x.right := hx x (List.mem_cons_self x xs)
    have hyle : y.left ≤ y.right := hy y (List.mem_cons_self y ys)
    have hxtail : ∀ s ∈ xs, s.left ≤ s.right := fun s hs =>
      hx s (List.mem_cons_of_mem x hs)
    have hytail : ∀ s ∈ ys, s.left ≤ s.right := fun s hs =>
      hy s (List.mem_cons_of_mem y hs)
    have hov1 : y.left < x.right := not_le.mp h1
    have hov2 : x.left < y.right := not_le.mp h2
    rw [mergeSegs, if_neg h1, if_neg h2]
    dsimp only
    split_ifs with hA hB hC hD hE hF hG hH
    · have hrec := ih1 hxtail (by
        intro s hs
        rcases List.mem_cons.mp hs with rfl | hs
        · show x.right ≤ y.right
          linarith
        · exact hytail s hs)
      simp only [totalSegLength_cons] at hrec
      simp only [List.cons_append, List.nil_append, totalSegLength_cons]
      rcases max_cases x.left y.left with ⟨hM, hM2⟩ | ⟨hM, hM2⟩ <;>
        rcases min_cases x.right y.right with ⟨hm, hm2⟩ | ⟨hm, hm2⟩ <;>
        rw [hM, hm] <;> linarith
    · have hrec := ih2 (by
        intro s hs
        rcases List.mem_cons.mp hs with rfl | hs
        · show y.right ≤ x.right
          linarith
        · exact hxtail s hs) hytail
      simp only [totalSegLength_cons] at hrec
      simp only [List.cons_append, List.nil_append, totalSegLength_cons]
      rcases max_cases x.left y.left with ⟨hM, hM2⟩ | ⟨hM, hM2⟩ <;>
        rcases min_cases x.right y.right with ⟨hm, hm2⟩ | ⟨hm, hm2⟩ <;>
        rw [hM, hm] <;> linarith
    · have hrec := ih3 hxtail hytail
      simp only [List.cons_append, List.nil_append, totalSegLength_cons]
      rcases max_cases x.left y.left with ⟨hM, hM2⟩ | ⟨hM, hM2⟩ <;>
        rcases min_cases x.right y.right with ⟨hm, hm2⟩ | ⟨hm, hm2⟩ <;>
        rw [hM, hm] <;> linarith
    · have hrec := ih1 hxtail (by
        intro s hs
        rcases List.mem_cons.mp hs with rfl | hs
        · show x.right ≤ y.right
          linarith
        · exact hytail s hs)
      simp only [totalSegLength_cons] at hrec
      simp only [List.cons_append, List.nil_append, totalSegLength_cons]
      rcases max_cases x.left y.left with ⟨hM, hM2⟩ | ⟨hM, hM2⟩ <;>
        rcases min_cases x.right y.right with ⟨hm, hm2⟩ | ⟨hm, hm2⟩ <;>
        rw [hM, hm] <;> linarith
    · have hrec := ih2 (by
        intro s hs
        rcases List.mem_cons.mp hs with rfl | hs
        · show y.right ≤ x.right
          linarith
        · exact hxtail s hs) hytail
      simp only [totalSegLength_cons] at hrec
      simp only [List.cons_append, List.nil_append, totalSegLength_cons]
      rcases max_cases x.left y.left with ⟨hM, hM2⟩ | ⟨hM, hM2⟩ <;>
        rcases min_cases x.right y.right with ⟨hm, hm2⟩ | ⟨hm, hm2⟩ <;>
        rw [hM, hm] <;> linarith
    · have hrec := ih3 hxtail hytail
      simp only [List.cons_append, List.nil_append, totalSegLength_cons]
      rcases max_cases x.left y.left with ⟨hM, hM2⟩ | ⟨hM, hM2⟩ <;>
        rcases min_cases x.right y.right with ⟨hm, hm2⟩ | ⟨hm, hm2⟩ <;>
        rw [hM, hm] <;> linarith
    · have hrec := ih1 hxtail (by
        intro s hs
        rcases List.mem_cons.mp hs with rfl | hs
        · show x.right ≤ y.right
          linarith
        · exact hytail s hs)
      simp only [totalSegLength_cons] at hrec
      simp only [List.cons_append, List.nil_append, totalSegLength_cons]
      rcases max_cases x.left y.left with ⟨hM, hM2⟩ | ⟨hM, hM2⟩ <;>
        rcases min_cases x.right y.right with ⟨hm, hm2⟩ | ⟨hm, hm2⟩ <;>
        rw [hM, hm] <;> linarith
    · have hrec := ih2 (by
        intro s hs
        rcases List.mem_cons.mp hs with rfl | hs
        · show y.right ≤ x.right
          linarith
        · exact hxtail s hs) hytail
      simp only [totalSegLength_cons] at hrec
      simp only [List.cons_append, List.nil_append, totalSegLength_cons]
      rcases max_cases x.left y.left with ⟨hM, hM2⟩ | ⟨hM, hM2⟩ <;>
        rcases min_cases x.right y.right with ⟨hm, hm2⟩ | ⟨hm, hm2⟩ <;>
        rw [hM, hm] <;> linarith
    · have hrec := ih3 hxtail hytail
      simp only [List.cons_append, List.nil_append, totalSegLength_cons]
      rcases max_cases x.left y.left with ⟨hM, hM2⟩ | ⟨hM, hM2⟩ <;>
        rcases min_cases x.right y.right with ⟨hm, hm2⟩ | ⟨hm, hm2⟩ <;>
        rw [hM, hm] <;> linarith

/-- C8: the total ancestral genomic length (summed over lineages) is
conserved exactly by every recombination split, and is unchanged or
decreased — never increased — by every coalescence merge. -/
theorem claim_C8_length_conservation :
    (∀ (p : ℚ) (xs : List Segment), (∀ s ∈ xs, s.left ≤ s.right) →
      totalSegLength (splitLineageLeft p xs) +
        totalSegLength (splitLineageRight p xs) = totalSegLength xs) ∧
    (∀ (w : Nat) (xs ys : List Segment),
      (∀ s ∈ xs, s.left ≤ s.right) → (∀ s ∈ ys, s.left ≤ s.right) →
      totalSegLength (mergeLineages w xs ys).1 ≤
        totalSegLength xs + totalSegLength ys) := by
  constructor
  · exact fun p xs h => totalSegLength_split p xs h
  · intro w xs ys hx hy
    have h1 := totalSegLength_mergeSegs_le w xs ys hx hy
    simp only [mergeLineages]
    rw [totalSegLength_defrag]
    exact h1

/-- Witness for C8: a split of `[0,2)` at `1` and a merge of `[0,2)` with
the overlapping `[1,3)`. -/
theorem claim_C8_witness :
    totalSegLength (splitLineageLeft 1 [⟨0, 2, 0⟩]) +
        totalSegLength (splitLineageRight 1 [⟨0, 2, 0⟩]) =
      totalSegLength [⟨0, 2, 0⟩] ∧
    totalSegLength (mergeLineages 5 [⟨0, 2, 0⟩] [⟨1, 3, 1⟩]).1 ≤
      totalSegLength [⟨0, 2, 0⟩] + totalSegLength [⟨1, 3, 1⟩] :=
  ⟨claim_C8_length_conservation.1 1 [⟨0, 2, 0⟩]
      (by
        intro s hs
        rw [List.mem_singleton] at hs
        subst hs
        norm_num),
   claim_C8_length_conservation.2 5 [⟨0, 2, 0⟩] [⟨1, 3, 1⟩]
      (by
        intro s hs
        rw [List.mem_singleton] at hs
        subst hs
        norm_num)
      (by
        intro s hs
        rw [List.mem_singleton] at hs
        subst hs
        norm_num)⟩

/-! ## Population/Demographic model (spec §3, §4.4) and claim C9. -/

/-- Modelled from the spec: the per-run deterministic pseudo-random
generator, seeded explicitly (spec §5); a linear-congruential step on a
64-bit state. -/
def rngNext (s : Nat) : Nat :=
  (6364136223846793005 * s + 1442695040888963407) % 2 ^ 64

/-- Kinds of scheduled demographic events, spec §3: size change, growth
rate change, migration rate change, mass migration. -/
inductive DemEventKind where
  | sizeChange (pop : Nat) (newSize : ℚ)
  | growthRateChange (pop : Nat) (rate : ℚ)
  | migrationRateChange (source dest : Nat) (rate : ℚ)
  | massMigration (source dest : Nat) (proportion : ℚ)
deriving DecidableEq, Repr

/-- Scheduled demographic event: a time and a kind with its parameters. -/
structure DemographicEvent where
  time : ℚ
  kind : DemEventKind
deriving DecidableEq, Repr

/-- Size and growth-rate parameters of one population. -/
structure PopulationState where
  size : ℚ
  growthRate : ℚ
deriving DecidableEq, Repr

/-- Mutable demographic state: per-population parameters, the migration
matrix, the population assignment of each lineage, the pseudo-random
stream, and the time of the last applied demographic event. -/
structure DemographicState where
  pops : List PopulationState
  migration : List (List ℚ)
  lineagePops : List Nat
  rng : Nat
  lastEventTime : ℚ
deriving DecidableEq, Repr

/-- Modelled from the spec: mass migration moves each lineage of the
source population independently into the destination with the given
probability, one Bernoulli trial per lineage (spec §4.4), drawn from the
deterministic stream. -/
def massMigrationStep (source dest : Nat) (proportion : ℚ) :
    List Nat → Nat → List Nat × Nat
  | [], rng => ([], rng)
  | q :: qs, rng =>
    let rng' := rngNext rng
    let r := massMigrationStep source dest proportion qs rng'
    ((if q = source ∧ ((rng' % 1000000 : Nat) : ℚ) / 1000000 < proportion
        then dest else q) :: r.1,
     r.2)

/-- Effect of one demographic event kind on the demographic state. -/
def applyDemKind (k : DemEventKind) (st : DemographicState) :
    DemographicState :=
  match k with
  | .sizeChange pop newSize =>
    { st with
      pops := (st.pops.set pop ⟨newSize, (st.pops.getD pop ⟨1, 0⟩).growthRate⟩) }
  | .growthRateChange pop rate =>
    { st with
      pops := (st.pops.set pop ⟨(st.pops.getD pop ⟨1, 0⟩).size, rate⟩) }
  | .migrationRateChange i j rate =>
    { st with
      migration := (st.migration.set i ((st.migration.getD i []).set j rate)) }
  | .massMigration source dest proportion =>
    let r := massMigrationStep source dest proportion st.lineagePops st.rng
    { st with lineagePops := r.1, rng := r.2 }

/-- Modelled from the spec: application of one scheduled demographic
event, spec §4.4: it "must occur at a time strictly greater than the
last-applied event's time (else `UNSORTED_DEMOGRAPHIC_EVENTS`)". -/
def apply_demographic_event (e : DemographicEvent)
    (st : DemographicState) : Except Int DemographicState :=
  if e.time ≤ st.lastEventTime then
    .error MSP_ERR_UNSORTED_DEMOGRAPHIC_EVENTS
  else
    .ok { applyDemKind e.kind st with lastEventTime := e.time }

/-- Strict chronological ordering check of an event schedule, starting
after time `last`. -/
def demographic_events_sorted (last : ℚ) :
    List DemographicEvent → Bool
  | [] => true
  | e :: rest => decide (last < e.time) && demographic_events_sorted e.time rest

/-- Modelled from the spec: running a configured schedule of demographic
events.  The configuration is validated up front — supplying events with
non-increasing times yields the `UNSORTED_DEMOGRAPHIC_EVENTS` error
"before any event executes" (spec §8) — and then the events apply in
chronological order. -/
def run_demographic_events (events : List DemographicEvent)
    (st : DemographicState) : Except Int DemographicState :=
  if demographic_events_sorted st.lastEventTime events then
    events.foldlM (fun s e => apply_demographic_event e s) st
  else
    .error MSP_ERR_UNSORTED_DEMOGRAPHIC_EVENTS

/-- A schedule containing an adjacent non-increasing pair of times fails
the chronological-ordering check, wherever the pair sits. -/
theorem demographic_events_sorted_false (e₁ e₂ : DemographicEvent)
    (post : List DemographicEvent) (h : e₂.time ≤ e₁.time) :
    ∀ (pre : List DemographicEvent) (last : ℚ),
    demographic_events_sorted last (pre ++ e₁ :: e₂ :: post) = false := by
  intro pre
  induction pre with
  | nil =>
    intro last
    simp only [List.nil_append, demographic_events_sorted]
    rw [decide_eq_false (not_lt.mpr h)]
    simp
  | cons e pre ih =>
    intro last
    simp only [List.cons_append, demographic_events_sorted, List.append_eq]
    rw [ih e.time]
    simp

/-- C9: applying a demographic event whose time is not strictly greater
than the last-applied event's time fails with
`UNSORTED_DEMOGRAPHIC_EVENTS`; and a schedule containing two events with
non-increasing times yields that error from the up-front validation,
before any event executes. -/
theorem claim_C9_unsorted_demographic_events :
    (∀ (e : DemographicEvent) (st : DemographicState),
      e.time ≤ st.lastEventTime →
      apply_demographic_event e st =
        .error MSP_ERR_UNSORTED_DEMOGRAPHIC_EVENTS) ∧
    (∀ (pre post : List DemographicEvent) (e₁ e₂ : DemographicEvent)
      (st : DemographicState), e₂.time ≤ e₁.time →
      run_demographic_events (pre ++ e₁ :: e₂ :: post) st =
        .error MSP_ERR_UNSORTED_DEMOGRAPHIC_EVENTS) := by
  constructor
  · intro e st h
    rw [apply_demographic_event, if_pos h]
  · intro pre post e₁ e₂ st h
    rw [run_demographic_events,
      demographic_events_sorted_false e₁ e₂ post h pre]
    simp

/-- Witness for C9: a two-event schedule with times `2` then `1`. -/
theorem claim_C9_witness :
    run_demographic_events
        [⟨2, .sizeChange 0 5⟩, ⟨1, .sizeChange 0 3⟩]
        ⟨[⟨1, 0⟩], [[0]], [0], 42, 0⟩ =
      .error MSP_ERR_UNSORTED_DEMOGRAPHIC_EVENTS :=
  claim_C9_unsorted_demographic_events.2 [] []
    ⟨2, .sizeChange 0 5⟩ ⟨1, .sizeChange 0 3⟩
    ⟨[⟨1, 0⟩], [[0]], [0], 42, 0⟩ (by norm_num)

/-! ## Event scheduler and reproducibility (claim C6). -/

/-- Modelled from the spec: immutable run configuration (spec §6) for the
single-population, zero-recombination coalescent core. -/
structure SimConfig where
  nSamples : Nat
deriving DecidableEq, Repr

/-- Modelled from the spec: the whole mutable simulator state lives in one
explicit run-context value (spec §9): active lineages, the next output
node id, the clock, the pseudo-random stream, and the append-only output
node/edge log with the event counter. -/
structure SimState where
  lineages : List Nat
  nextNode : Nat
  time : ℚ
  rng : Nat
  nodes : List (ℚ × Nat)
  edges : List (ℚ × ℚ × Nat × Nat)
  eventCount : Nat
deriving DecidableEq, Repr

/-- Modelled from the spec: one scheduler iteration of the
single-population, zero-recombination coalescent (spec §4.5).  The
waiting time and the merged pair are deterministic functions of the
seeded pseudo-random stream (spec §5): two uniformly-chosen distinct
lineages coalesce into a fresh ancestor node at rate `C(k,2)`, emitting
one node and two full-genome edges. -/
def simStep (st : SimState) : SimState :=
  match st.lineages with
  | _ :: _ :: _ =>
    let k := st.lineages.length
    let u₁ := rngNext st.rng
    let u₂ := rngNext u₁
    let i := u₁ % k
    let j' := u₂ % (k - 1)
    let j := if j' < i then j' else j' + 1
    let ci := st.lineages.getD i 0
    let cj := st.lineages.getD j 0
    let rate : ℚ := ((k * (k - 1)) : Nat) / 2
    let dt : ℚ := (1 + ((u₂ % 97 : Nat) : ℚ)) / rate
    let t := st.time + dt
    { lineages :=
        (st.nextNode :: ((st.lineages.eraseIdx (max i j)).eraseIdx (min i j))),
      nextNode := st.nextNode + 1,
      time := t,
      rng := u₂,
      nodes := (st.nodes ++ [(t, 0)]),
      edges := (st.edges ++ [(0, 1, st.nextNode, ci), (0, 1, st.nextNode, cj)]),
      eventCount := st.eventCount + 1 }
  | _ => st

/-- Initial state of a run: one sample lineage and one time-0 sample node
per configured sample, the generator seeded explicitly. -/
def simInit (cfg : SimConfig) (seed : Nat) : SimState :=
  { lineages := List.range cfg.nSamples,
    nextNode := cfg.nSamples,
    time := 0,
    rng := seed,
    nodes := List.replicate cfg.nSamples (0, 0),
    edges := [],
    eventCount := 0 }

/-- Modelled from the spec: a full run of the zero-recombination
single-population coalescent, which terminates after `n - 1` coalescence
events (spec §8); the run is a pure function of the configuration and the
seed. -/
def runSim (cfg : SimConfig) (seed : Nat) : SimState :=
  simStep^[cfg.nSamples - 1] (simInit cfg seed)

/-- C6: bit-for-bit reproducibility — two runs with identical
configuration and identical seed produce identical node sequences,
identical edge sequences, and identical total event counts.  In this
embedding the run is a pure function of `(configuration, seed)`, so the
property holds by construction, which is exactly the spec's point: all
randomness comes from the explicitly seeded per-run generator and no
other input exists. -/
theorem claim_C6_determinism (cfg₁ cfg₂ : SimConfig) (s₁ s₂ : Nat)
    (hc : cfg₁ = cfg₂) (hs : s₁ = s₂) :
    (runSim cfg₁ s₁).nodes = (runSim cfg₂ s₂).nodes ∧
    (runSim cfg₁ s₁).edges = (runSim cfg₂ s₂).edges ∧
    (runSim cfg₁ s₁).eventCount = (runSim cfg₂ s₂).eventCount := by
  subst hc
  subst hs
  exact ⟨rfl, rfl, rfl⟩

/-- Witness for C6 at three samples, seed 42. -/
theorem claim_C6_witness :
    (runSim ⟨3⟩ 42).nodes = (runSim ⟨3⟩ 42).nodes ∧
    (runSim ⟨3⟩ 42).edges = (runSim ⟨3⟩ 42).edges ∧
    (runSim ⟨3⟩ 42).eventCount = (runSim ⟨3⟩ 42).eventCount :=
  claim_C6_determinism ⟨3⟩ ⟨3⟩ 42 42 rfl rfl
